import Mathlib

/-!
Verification development for the coinbase/binance/hitbtc bridge services.

The Python sources are shallowly embedded: exact decimal / float arithmetic
is modelled with `ℚ`, millisecond timestamps with `Nat`/`Int`, fallible REST
and SDK calls with `Except`/`Option`, and the mutable module-level candle
dictionary with an association list that mirrors Python's insertion-ordered
`dict`.  Each embedded definition is translated from one named function of
the source tree (named in its doc comment).
-/

namespace Bridge

/-- One OHLCV candle value `[o, h, l, c, vol]` as stored in the Python
`candles` dictionaries (`bridge/bridge_ws.py`, `bridge_hitbtc/ws_hitbtc.py`,
`bridge_binance/ws_binance.py`). -/
structure CandleV where
  o : ℚ
  h : ℚ
  l : ℚ
  c : ℚ
  v : ℚ
deriving DecidableEq, Repr

/-- The module-level `candles` dictionary: an insertion-ordered mapping from
bucket key to candle, embedded as an association list. -/
abbrev CandleStore := List (Nat × CandleV)

/-- `MAX_MINUTES = 7 * 24 * 60` from `bridge/bridge_ws.py`. -/
def MAX_MINUTES : Nat := 7 * 24 * 60

/-- `_minute_start(ts_ms) = (ts_ms // 60000) * 60` from `bridge/bridge_ws.py`
(the generic bridge keys buckets by UNIX seconds). -/
def minuteStart (tsMs : Nat) : Nat := tsMs / 60000 * 60

/-- The keys of the store, in insertion order (`candles.keys()`). -/
def storeKeys (s : CandleStore) : List Nat := s.map Prod.fst

/-- Dictionary lookup `candles.get(m)` / `m in candles`. -/
def lookupKey (m : Nat) : CandleStore → Option CandleV
  | [] => none
  | p :: rest => if p.1 = m then some p.2 else lookupKey m rest

/-- The keys of the store are pairwise distinct (always true of a Python
`dict`; an invariant of the embedding). -/
def keysNodup (s : CandleStore) : Prop := (storeKeys s).Nodup

/-- `_trim_old_candles()` from `bridge/bridge_ws.py`: if the store holds more
than `MAX_MINUTES` entries, pop the `len(candles) - MAX_MINUTES` smallest keys
(`sorted(candles.keys())[: len(candles) - MAX_MINUTES]`). -/
def trimOldCandles (s : CandleStore) : CandleStore :=
  if s.length ≤ MAX_MINUTES then s
  else
    s.filter fun p =>
      decide (p.1 ∉ (List.insertionSort (· ≤ ·) (storeKeys s)).take (s.length - MAX_MINUTES))

/-- The body of `_update_candle(px, ts_ms, vol)` from `bridge/bridge_ws.py`,
before the trailing `_trim_old_candles()` call: create the bucket with
`[px, px, px, px, vol]` if absent, else update `h`/`l`/`c`/`v` in place. -/
def applyTick (px : ℚ) (tsMs : Nat) (vol : ℚ) (s : CandleStore) : CandleStore :=
  match lookupKey (minuteStart tsMs) s with
  | none => s ++ [(minuteStart tsMs, ⟨px, px, px, px, vol⟩)]
  | some cd =>
      s.map fun p =>
        if p.1 = minuteStart tsMs then
          (minuteStart tsMs,
            ⟨cd.o, if px > cd.h then px else cd.h, if px < cd.l then px else cd.l,
             px, cd.v + vol⟩)
        else p

/-- `_update_candle` from `bridge/bridge_ws.py`: apply the tick, then trim. -/
def updateCandle (px : ℚ) (tsMs : Nat) (vol : ℚ) (s : CandleStore) : CandleStore :=
  trimOldCandles (applyTick px tsMs vol s)

theorem lookupKey_eq_none (m : Nat) :
    ∀ s : CandleStore, lookupKey m s = none ↔ m ∉ storeKeys s := by
  intro s
  induction s with
  | nil => simp [lookupKey, storeKeys]
  | cons p rest ih =>
      by_cases hp : p.1 = m
      · simp [lookupKey, hp, storeKeys]
      · simp [lookupKey, hp, storeKeys, ih]
        intro h; exact fun hm => hp hm.symm

theorem lookupKey_append_single (m : Nat) (cd : CandleV) :
    ∀ s : CandleStore, lookupKey m s = none → lookupKey m (s ++ [(m, cd)]) = some cd := by
  intro s
  induction s with
  | nil => intro _; simp [lookupKey]
  | cons p rest ih =>
      intro h
      by_cases hp : p.1 = m
      · simp [lookupKey, hp] at h
      · simp [lookupKey, hp] at h ⊢
        exact ih h

theorem lookupKey_map_self (m : Nat) (newCd : CandleV) :
    ∀ s : CandleStore, (lookupKey m s).isSome →
      lookupKey m (s.map fun p => if p.1 = m then (m, newCd) else p) = some newCd := by
  intro s
  induction s with
  | nil => simp [lookupKey]
  | cons p rest ih =>
      intro hs
      by_cases hp : p.1 = m
      · simp [lookupKey, hp]
      · simp [lookupKey, hp] at hs ⊢
        exact ih hs

theorem applyTick_of_none (px vol : ℚ) (tsMs : Nat) (s : CandleStore)
    (h : lookupKey (minuteStart tsMs) s = none) :
    applyTick px tsMs vol s = s ++ [(minuteStart tsMs, ⟨px, px, px, px, vol⟩)] := by
  unfold applyTick
  rw [h]

theorem applyTick_of_some (px vol : ℚ) (tsMs : Nat) (s : CandleStore) (cd : CandleV)
    (h : lookupKey (minuteStart tsMs) s = some cd) :
    applyTick px tsMs vol s =
      s.map fun p =>
        if p.1 = minuteStart tsMs then
          (minuteStart tsMs,
            ⟨cd.o, if px > cd.h then px else cd.h, if px < cd.l then px else cd.l,
             px, cd.v + vol⟩)
        else p := by
  unfold applyTick
  rw [h]

theorem applyTick_length_le (px : ℚ) (tsMs : Nat) (vol : ℚ) (s : CandleStore) :
    (applyTick px tsMs vol s).length ≤ s.length + 1 := by
  cases h : lookupKey (minuteStart tsMs) s with
  | none => rw [applyTick_of_none px vol tsMs s h]; simp
  | some cd => rw [applyTick_of_some px vol tsMs s cd h]; simp

theorem trimOldCandles_of_le (s : CandleStore) (h : s.length ≤ MAX_MINUTES) :
    trimOldCandles s = s := by
  simp [trimOldCandles, h]

theorem length_filter_lt {α : Type} (p : α → Bool) :
    ∀ (l : List α) (x : α), x ∈ l → p x = false → (l.filter p).length < l.length := by
  intro l
  induction l with
  | nil => intro x hx; cases hx
  | cons a rest ih =>
      intro x hx hp
      rcases List.mem_cons.mp hx with rfl | hx'
      · cases ha : p x
        · simp only [List.filter_cons, ha, Bool.false_eq_true, if_false, List.length_cons]
          exact Nat.lt_succ_of_le (List.length_filter_le p rest)
        · rw [ha] at hp; cases hp
      · cases ha : p a
        · simp only [List.filter_cons, ha, Bool.false_eq_true, if_false, List.length_cons]
          exact Nat.lt_succ_of_lt (ih x hx' hp)
        · simp only [List.filter_cons, ha, if_true, List.length_cons]
          exact Nat.succ_lt_succ (ih x hx' hp)

theorem storeKeys_filter (q : Nat → Bool) :
    ∀ s : CandleStore, storeKeys (s.filter fun p => q p.1) = (storeKeys s).filter q := by
  intro s
  induction s with
  | nil => rfl
  | cons p rest ih =>
      cases hq : q p.1
      · simp only [storeKeys, List.map_cons, List.filter_cons, hq, Bool.false_eq_true,
          if_false] at ih ⊢
        exact ih
      · simp only [storeKeys, List.map_cons, List.filter_cons, hq, if_true] at ih ⊢
        rw [ih]

theorem storeKeys_length (s : CandleStore) : (storeKeys s).length = s.length :=
  List.length_map s Prod.fst

theorem storeKeys_applyTick_none (px vol : ℚ) (tsMs : Nat) (s : CandleStore)
    (h : lookupKey (minuteStart tsMs) s = none) :
    storeKeys (applyTick px tsMs vol s) = storeKeys s ++ [minuteStart tsMs] := by
  rw [applyTick_of_none px vol tsMs s h]
  simp [storeKeys]

theorem storeKeys_applyTick_some (px vol : ℚ) (tsMs : Nat) (s : CandleStore) (cd : CandleV)
    (h : lookupKey (minuteStart tsMs) s = some cd) :
    storeKeys (applyTick px tsMs vol s) = storeKeys s := by
  rw [applyTick_of_some px vol tsMs s cd h]
  simp only [storeKeys, List.map_map]
  apply List.map_congr_left
  intro p _
  by_cases hp : p.1 = minuteStart tsMs
  · simp [Function.comp, hp]
  · simp [Function.comp, hp]

theorem keysNodup_applyTick (px vol : ℚ) (tsMs : Nat) (s : CandleStore)
    (hnd : keysNodup s) : keysNodup (applyTick px tsMs vol s) := by
  cases h : lookupKey (minuteStart tsMs) s with
  | none =>
      unfold keysNodup
      rw [storeKeys_applyTick_none px vol tsMs s h]
      have hm : minuteStart tsMs ∉ storeKeys s := (lookupKey_eq_none _ s).mp h
      refine List.nodup_append.mpr ⟨hnd, List.nodup_singleton _, ?_⟩
      intro a ha hma
      have haeq : a = minuteStart tsMs := by simpa using hma
      subst haeq
      exact hm ha
  | some cd =>
      unfold keysNodup
      rw [storeKeys_applyTick_some px vol tsMs s cd h]
      exact hnd

theorem trimOldCandles_keys_of_gt (s : CandleStore) (h : ¬ s.length ≤ MAX_MINUTES) :
    storeKeys (trimOldCandles s) =
      (storeKeys s).filter fun x =>
        decide (x ∉ (List.insertionSort (· ≤ ·) (storeKeys s)).take
          (s.length - MAX_MINUTES)) := by
  unfold trimOldCandles
  rw [if_neg h]
  exact storeKeys_filter
    (fun x => decide (x ∉ (List.insertionSort (· ≤ ·) (storeKeys s)).take
      (s.length - MAX_MINUTES))) s

theorem trim_length_le (s : CandleStore) (hnd : keysNodup s) :
    (trimOldCandles s).length ≤ MAX_MINUTES := by
  by_cases hle : s.length ≤ MAX_MINUTES
  · rw [trimOldCandles_of_le s hle]; exact hle
  · have hkeys := trimOldCandles_keys_of_gt s hle
    have hperm : List.Perm (List.insertionSort (· ≤ ·) (storeKeys s)) (storeKeys s) :=
      List.perm_insertionSort _ _
    have hns : (List.insertionSort (· ≤ ·) (storeKeys s)).Nodup := hperm.nodup_iff.mpr hnd
    set sorted := List.insertionSort (· ≤ ·) (storeKeys s) with hsortdef
    set k := s.length - MAX_MINUTES with hkdef
    have hsplit : sorted.take k ++ sorted.drop k = sorted := List.take_append_drop k sorted
    have hdisj : List.Disjoint (sorted.take k) (sorted.drop k) := by
      rw [← hsplit] at hns
      exact (List.nodup_append.mp hns).2.2
    have hfilperm :
        List.Perm ((storeKeys s).filter (fun x => decide (x ∉ sorted.take k)))
          (sorted.filter (fun x => decide (x ∉ sorted.take k))) :=
      (hperm.filter _).symm
    have h1 : (sorted.take k).filter (fun x => decide (x ∉ sorted.take k)) = [] := by
      apply List.filter_eq_nil_iff.mpr
      intro a ha
      simp [ha]
    have h2 : (sorted.drop k).filter (fun x => decide (x ∉ sorted.take k)) =
        sorted.drop k := by
      apply List.filter_eq_self.mpr
      intro a ha
      simp only [decide_eq_true_eq]
      exact fun hc => hdisj hc ha
    have hfil2 : sorted.filter (fun x => decide (x ∉ sorted.take k)) = sorted.drop k := by
      have hsw : sorted.filter (fun x => decide (x ∉ sorted.take k)) =
          (sorted.take k ++ sorted.drop k).filter (fun x => decide (x ∉ sorted.take k)) := by
        rw [hsplit]
      rw [hsw, List.filter_append, h1, h2, List.nil_append]
    have hlen1 : (trimOldCandles s).length = (storeKeys (trimOldCandles s)).length :=
      (storeKeys_length _).symm
    have hlen2 : (storeKeys (trimOldCandles s)).length = (sorted.drop k).length := by
      rw [hkeys, hfilperm.length_eq, hfil2]
    have hslen : sorted.length = s.length := by
      rw [hperm.length_eq, storeKeys_length]
    rw [hlen1, hlen2, List.length_drop, hslen]
    omega

theorem trim_oldest (s : CandleStore) (hnd : keysNodup s) :
    ∀ x ∈ storeKeys s, x ∉ storeKeys (trimOldCandles s) →
      ∀ y ∈ storeKeys (trimOldCandles s), x < y := by
  intro x hx hxout y hy
  by_cases hle : s.length ≤ MAX_MINUTES
  · rw [trimOldCandles_of_le s hle] at hxout
    exact absurd hx hxout
  · have hkeys := trimOldCandles_keys_of_gt s hle
    have hperm : List.Perm (List.insertionSort (· ≤ ·) (storeKeys s)) (storeKeys s) :=
      List.perm_insertionSort _ _
    have hns : (List.insertionSort (· ≤ ·) (storeKeys s)).Nodup := hperm.nodup_iff.mpr hnd
    have hsort : List.Sorted (· ≤ ·) (List.insertionSort (· ≤ ·) (storeKeys s)) :=
      List.sorted_insertionSort _ _
    set sorted := List.insertionSort (· ≤ ·) (storeKeys s) with hsortdef
    set k := s.length - MAX_MINUTES with hkdef
    have hsplit : sorted.take k ++ sorted.drop k = sorted := List.take_append_drop k sorted
    have hdisj : List.Disjoint (sorted.take k) (sorted.drop k) := by
      have hns' := hns
      rw [← hsplit] at hns'
      exact (List.nodup_append.mp hns').2.2
    have hrel : ∀ a ∈ sorted.take k, ∀ b ∈ sorted.drop k, a ≤ b := by
      have hsort' := hsort
      rw [← hsplit] at hsort'
      exact (List.pairwise_append.mp hsort').2.2
    have hxin : x ∈ sorted.take k := by
      rw [hkeys] at hxout
      by_contra hxtake
      exact hxout (List.mem_filter.mpr ⟨hx, by simp [hxtake]⟩)
    have hyin : y ∈ sorted.drop k := by
      rw [hkeys] at hy
      have := List.mem_filter.mp hy
      have hynot : y ∉ sorted.take k := by
        have := this.2
        simpa using this
      have hysorted : y ∈ sorted := hperm.mem_iff.mpr this.1
      rw [← hsplit] at hysorted
      rcases List.mem_append.mp hysorted with h | h
      · exact absurd h hynot
      · exact h
    have hxy : x ≤ y := hrel x hxin y hyin
    have hne : x ≠ y := by
      intro heq
      exact hdisj hxin (heq ▸ hyin)
    exact lt_of_le_of_ne hxy hne

theorem trim_mem_char (s : CandleStore) (hnd : keysNodup s) (x : Nat) :
    x ∈ storeKeys (trimOldCandles s) ↔
      x ∈ storeKeys s ∧
        ((storeKeys s).filter fun j => decide (x < j)).length < MAX_MINUTES := by
  by_cases hle : s.length ≤ MAX_MINUTES
  · rw [trimOldCandles_of_le s hle]
    constructor
    · intro hx
      refine ⟨hx, ?_⟩
      calc ((storeKeys s).filter fun j => decide (x < j)).length
          < (storeKeys s).length := length_filter_lt _ _ x hx (by simp)
        _ = s.length := storeKeys_length s
        _ ≤ MAX_MINUTES := hle
    · exact fun h => h.1
  · have hkeys := trimOldCandles_keys_of_gt s hle
    have hperm : List.Perm (List.insertionSort (· ≤ ·) (storeKeys s)) (storeKeys s) :=
      List.perm_insertionSort _ _
    have hns : (List.insertionSort (· ≤ ·) (storeKeys s)).Nodup := hperm.nodup_iff.mpr hnd
    have hsort : List.Sorted (· ≤ ·) (List.insertionSort (· ≤ ·) (storeKeys s)) :=
      List.sorted_insertionSort _ _
    set sorted := List.insertionSort (· ≤ ·) (storeKeys s) with hsortdef
    set k := s.length - MAX_MINUTES with hkdef
    have hsplit : sorted.take k ++ sorted.drop k = sorted := List.take_append_drop k sorted
    have hdisj : List.Disjoint (sorted.take k) (sorted.drop k) := by
      have hns' := hns
      rw [← hsplit] at hns'
      exact (List.nodup_append.mp hns').2.2
    have hrel : ∀ a ∈ sorted.take k, ∀ b ∈ sorted.drop k, a ≤ b := by
      have hsort' := hsort
      rw [← hsplit] at hsort'
      exact (List.pairwise_append.mp hsort').2.2
    have hdroplen : (sorted.drop k).length = MAX_MINUTES := by
      have hslen : sorted.length = s.length := by
        rw [hperm.length_eq, storeKeys_length]
      rw [List.length_drop, hslen]
      omega
    have hcount : ((storeKeys s).filter fun j => decide (x < j)).length =
        ((sorted.take k).filter fun j => decide (x < j)).length +
          ((sorted.drop k).filter fun j => decide (x < j)).length := by
      have h1 : List.Perm ((storeKeys s).filter fun j => decide (x < j))
          (sorted.filter fun j => decide (x < j)) := (hperm.filter _).symm
      have hsw : sorted.filter (fun j => decide (x < j)) =
          (sorted.take k ++ sorted.drop k).filter (fun j => decide (x < j)) := by
        rw [hsplit]
      rw [h1.length_eq, hsw, List.filter_append, List.length_append]
    constructor
    · intro hxin
      rw [hkeys] at hxin
      have hmem := List.mem_filter.mp hxin
      have hxkeys : x ∈ storeKeys s := hmem.1
      have hxnottake : x ∉ sorted.take k := by
        have := hmem.2
        simpa using this
      have hxdrop : x ∈ sorted.drop k := by
        have hxs : x ∈ sorted := hperm.mem_iff.mpr hxkeys
        rw [← hsplit] at hxs
        rcases List.mem_append.mp hxs with h | h
        · exact absurd h hxnottake
        · exact h
      refine ⟨hxkeys, ?_⟩
      rw [hcount]
      have htake0 : ((sorted.take k).filter fun j => decide (x < j)) = [] := by
        apply List.filter_eq_nil_iff.mpr
        intro a ha
        have : a ≤ x := hrel a ha x hxdrop
        simp [not_lt.mpr this]
      have hdroplt : ((sorted.drop k).filter fun j => decide (x < j)).length <
          (sorted.drop k).length := length_filter_lt _ _ x hxdrop (by simp)
      rw [htake0]
      simpa [hdroplen] using hdroplt
    · rintro ⟨hxkeys, hcnt⟩
      rw [hkeys]
      apply List.mem_filter.mpr
      refine ⟨hxkeys, ?_⟩
      simp only [decide_eq_true_eq]
      intro hxtake
      have hdropfull : ((sorted.drop k).filter fun j => decide (x < j)) = sorted.drop k := by
        apply List.filter_eq_self.mpr
        intro a ha
        have hxa : x ≤ a := hrel x hxtake a ha
        have hne : x ≠ a := fun heq => hdisj hxtake (heq ▸ ha)
        simp [lt_of_le_of_ne hxa hne]
      rw [hcount, hdropfull, hdroplen] at hcnt
      omega

theorem keysNodup_updateCandle (px vol : ℚ) (tsMs : Nat) (s : CandleStore)
    (hnd : keysNodup s) : keysNodup (updateCandle px tsMs vol s) := by
  unfold updateCandle keysNodup
  by_cases hle : (applyTick px tsMs vol s).length ≤ MAX_MINUTES
  · rw [trimOldCandles_of_le _ hle]
    exact keysNodup_applyTick px vol tsMs s hnd
  · rw [trimOldCandles_keys_of_gt _ hle]
    exact (keysNodup_applyTick px vol tsMs s hnd).filter _

/-- Claim C1: for every tick applied by the candle updater with 60s buckets,
the bucket key is `floor(timestamp / width) * width` (stated for a timestamp
of `tSec` seconds, i.e. `1000 * tSec` ms); a missing bucket is created with
`open = high = low = close = price` and `volume = vol`; an existing bucket
gets `high = max(high, price)`, `low = min(low, price)`, `close = price`,
`volume += vol` and an unchanged `open`.  In particular the tick sequence
`(t=0, 100), (t=30, 105), (t=59, 95)` on the empty store yields exactly one
bucket with `bucket_start = 0`, `open = 100`, `high = 105`, `low = 95`,
`close = 95`, `volume = 0`. -/
theorem C1_candle_update_semantics (s : CandleStore) (px vol : ℚ) (tsMs : Nat)
    (hlen : s.length < MAX_MINUTES) :
    (∀ tSec : Nat, minuteStart (1000 * tSec) = tSec / 60 * 60) ∧
    (lookupKey (minuteStart tsMs) s = none →
      updateCandle px tsMs vol s ≠ [] ∧
      lookupKey (minuteStart tsMs) (updateCandle px tsMs vol s) =
        some ⟨px, px, px, px, vol⟩) ∧
    (∀ cd : CandleV, lookupKey (minuteStart tsMs) s = some cd →
      lookupKey (minuteStart tsMs) (updateCandle px tsMs vol s) =
        some ⟨cd.o, max cd.h px, min cd.l px, px, cd.v + vol⟩) ∧
    updateCandle 95 59000 0 (updateCandle 105 30000 0 (updateCandle 100 0 0 [])) =
      [(0, ⟨100, 105, 95, 95, 0⟩)] := by
  refine ⟨?_, ?_, ?_, ?_⟩
  · intro tSec
    unfold minuteStart
    omega
  · intro hnone
    have htrim : updateCandle px tsMs vol s = applyTick px tsMs vol s := by
      unfold updateCandle
      exact trimOldCandles_of_le _ (le_trans (applyTick_length_le px tsMs vol s) hlen)
    rw [htrim, applyTick_of_none px vol tsMs s hnone]
    constructor
    · simp
    · exact lookupKey_append_single _ _ _ hnone
  · intro cd hsome
    have htrim : updateCandle px tsMs vol s = applyTick px tsMs vol s := by
      unfold updateCandle
      exact trimOldCandles_of_le _ (le_trans (applyTick_length_le px tsMs vol s) hlen)
    rw [htrim, applyTick_of_some px vol tsMs s cd hsome]
    rw [lookupKey_map_self (minuteStart tsMs) _ s (by rw [hsome]; rfl)]
    have hh : (if px > cd.h then px else cd.h) = max cd.h px := by
      rcases le_or_lt px cd.h with h | h
      · rw [if_neg (not_lt.mpr h), max_eq_left h]
      · rw [if_pos h, max_eq_right h.le]
    have hl : (if px < cd.l then px else cd.l) = min cd.l px := by
      rcases le_or_lt cd.l px with h | h
      · rw [if_neg (not_lt.mpr h), min_eq_left h]
      · rw [if_pos h, min_eq_right h.le]
    simp [hh, hl]
  · norm_num [updateCandle, applyTick, lookupKey, minuteStart, trimOldCandles, MAX_MINUTES]

/-- Witness for C1 at a concrete input: the empty store has fewer than
`MAX_MINUTES` entries, and applying the theorem there reproduces the
new-bucket, existing-bucket and scenario facts. -/
theorem C1_candle_update_semantics_witness :
    ([] : CandleStore).length < MAX_MINUTES ∧
    ((∀ tSec : Nat, minuteStart (1000 * tSec) = tSec / 60 * 60) ∧
     (lookupKey (minuteStart 0) ([] : CandleStore) = none →
       updateCandle 100 0 0 [] ≠ [] ∧
       lookupKey (minuteStart 0) (updateCandle 100 0 0 []) =
         some ⟨100, 100, 100, 100, 0⟩) ∧
     (∀ cd : CandleV, lookupKey (minuteStart 0) ([] : CandleStore) = some cd →
       lookupKey (minuteStart 0) (updateCandle 100 0 0 []) =
         some ⟨cd.o, max cd.h 100, min cd.l 100, 100, cd.v + 0⟩) ∧
     updateCandle 95 59000 0 (updateCandle 105 30000 0 (updateCandle 100 0 0 [])) =
       [(0, ⟨100, 105, 95, 95, 0⟩)]) :=
  ⟨by decide, C1_candle_update_semantics [] 100 0 0 (by decide)⟩


theorem mem_eq_of_lookup (m : Nat) (cd : CandleV) :
    ∀ s : CandleStore, keysNodup s → lookupKey m s = some cd →
      ∀ p ∈ s, p.1 = m → p = (m, cd) := by
  intro s
  induction s with
  | nil => intro _ h; cases h
  | cons q rest ih =>
      intro hnd hlk p hp hpm
      have hnd' : (storeKeys (q :: rest)).Nodup := hnd
      simp only [storeKeys, List.map_cons, List.nodup_cons] at hnd'
      by_cases hq : q.1 = m
      · have hcd : q.2 = cd := by
          simp only [lookupKey, hq, if_true, Option.some.injEq] at hlk
          exact hlk
        rcases List.mem_cons.mp hp with rfl | hp'
        · calc p = (p.1, p.2) := rfl
            _ = (m, cd) := by rw [hpm, hcd]
        · exfalso
          apply hnd'.1
          have : p.1 ∈ List.map Prod.fst rest := List.mem_map.mpr ⟨p, hp', rfl⟩
          rw [hpm, ← hq] at this
          exact this
      · simp only [lookupKey, hq, if_false] at hlk
        rcases List.mem_cons.mp hp with rfl | hp'
        · exact absurd hpm hq
        · exact ih hnd'.2 hlk p hp' hpm

theorem lookup_after_applyTick (px vol : ℚ) (ts : Nat) (s : CandleStore) :
    ∃ cd1 : CandleV, lookupKey (minuteStart ts) (applyTick px ts vol s) = some cd1 ∧
      cd1.c = px ∧ px ≤ cd1.h ∧ cd1.l ≤ px := by
  cases h : lookupKey (minuteStart ts) s with
  | none =>
      refine ⟨⟨px, px, px, px, vol⟩, ?_, rfl, le_refl px, le_refl px⟩
      rw [applyTick_of_none px vol ts s h]
      exact lookupKey_append_single _ _ s h
  | some cd =>
      refine ⟨⟨cd.o, if px > cd.h then px else cd.h, if px < cd.l then px else cd.l,
        px, cd.v + vol⟩, ?_, rfl, ?_, ?_⟩
      · rw [applyTick_of_some px vol ts s cd h]
        exact lookupKey_map_self _ _ s (by rw [h]; rfl)
      · dsimp only
        split
        · exact le_refl px
        · exact not_lt.mp (by assumption)
      · dsimp only
        split
        · exact le_refl px
        · exact not_lt.mp (by assumption)

theorem updateCandle_replay_fixed (px : ℚ) (ts : Nat) (s : CandleStore)
    (hnd : keysNodup s) (hlen : s.length < MAX_MINUTES) :
    updateCandle px ts 0 (updateCandle px ts 0 s) = updateCandle px ts 0 s := by
  have hlen1 : (applyTick px ts 0 s).length ≤ MAX_MINUTES :=
    le_trans (applyTick_length_le px ts 0 s) hlen
  have hup : updateCandle px ts 0 s = applyTick px ts 0 s := by
    unfold updateCandle
    exact trimOldCandles_of_le _ hlen1
  have hnd1 : keysNodup (applyTick px ts 0 s) := keysNodup_applyTick px 0 ts s hnd
  obtain ⟨cd1, hlk, hc, hh, hl⟩ := lookup_after_applyTick px 0 ts s
  have happ : applyTick px ts 0 (applyTick px ts 0 s) = applyTick px ts 0 s := by
    rw [applyTick_of_some px 0 ts _ cd1 hlk]
    have hcongr : ∀ p ∈ applyTick px ts 0 s,
        (if p.1 = minuteStart ts then
          ((minuteStart ts,
            ⟨cd1.o, if px > cd1.h then px else cd1.h, if px < cd1.l then px else cd1.l,
             px, cd1.v + 0⟩) : Nat × CandleV)
        else p) = p := by
      intro p hp
      by_cases hpm : p.1 = minuteStart ts
      · have hpe : p = (minuteStart ts, cd1) :=
          mem_eq_of_lookup (minuteStart ts) cd1 _ hnd1 hlk p hp hpm
        rw [if_pos hpm, hpe]
        have e1 : (if px > cd1.h then px else cd1.h) = cd1.h := if_neg (not_lt.mpr hh)
        have e2 : (if px < cd1.l then px else cd1.l) = cd1.l := if_neg (not_lt.mpr hl)
        rw [e1, e2, add_zero, ← hc]
      · exact if_neg hpm
    calc (applyTick px ts 0 s).map (fun p =>
            if p.1 = minuteStart ts then
              (minuteStart ts,
                ⟨cd1.o, if px > cd1.h then px else cd1.h, if px < cd1.l then px else cd1.l,
                 px, cd1.v + 0⟩)
            else p)
        = (applyTick px ts 0 s).map id := List.map_congr_left hcongr
      _ = applyTick px ts 0 s := List.map_id _
  show trimOldCandles (applyTick px ts 0 (updateCandle px ts 0 s)) = updateCandle px ts 0 s
  rw [hup, happ]
  exact trimOldCandles_of_le _ hlen1

/-- Claim C5: after each candle update the store holds at most
`MAX_MINUTES = 7*24*60` entries (one week of minute buckets); whenever
eviction occurs the removed entries are exactly the oldest ones by bucket
key (every evicted key is smaller than every retained key); and a bucket is
retained exactly when fewer than `MAX_MINUTES` strictly larger keys are
present, i.e. the store always keeps the most recent `MAX_MINUTES` buckets. -/
theorem C5_bounded_retention (s : CandleStore) (px vol : ℚ) (ts : Nat)
    (hnd : keysNodup s) :
    (updateCandle px ts vol s).length ≤ MAX_MINUTES ∧
    (∀ x ∈ storeKeys (applyTick px ts vol s), x ∉ storeKeys (updateCandle px ts vol s) →
       ∀ y ∈ storeKeys (updateCandle px ts vol s), x < y) ∧
    (∀ k, k ∈ storeKeys (updateCandle px ts vol s) ↔
       k ∈ storeKeys (applyTick px ts vol s) ∧
         ((storeKeys (applyTick px ts vol s)).filter fun j => decide (k < j)).length
           < MAX_MINUTES) := by
  have hnd1 : keysNodup (applyTick px ts vol s) := keysNodup_applyTick px vol ts s hnd
  exact ⟨trim_length_le _ hnd1,
    fun x hx hxo y hy => trim_oldest _ hnd1 x hx hxo y hy,
    fun k => trim_mem_char _ hnd1 k⟩

/-- Witness for C5 at a concrete input: the empty store has distinct keys, and
the theorem applied there bounds and characterises the updated store. -/
theorem C5_bounded_retention_witness :
    keysNodup ([] : CandleStore) ∧
    ((updateCandle 1 0 0 []).length ≤ MAX_MINUTES ∧
     (∀ x ∈ storeKeys (applyTick 1 0 0 []), x ∉ storeKeys (updateCandle 1 0 0 []) →
        ∀ y ∈ storeKeys (updateCandle 1 0 0 []), x < y) ∧
     (∀ k, k ∈ storeKeys (updateCandle 1 0 0 []) ↔
        k ∈ storeKeys (applyTick 1 0 0 []) ∧
          ((storeKeys (applyTick 1 0 0 [])).filter fun j => decide (k < j)).length
            < MAX_MINUTES)) :=
  ⟨List.nodup_nil, C5_bounded_retention [] 1 0 0 List.nodup_nil⟩

/-- Claim C6: replaying an identical tick (same price, same timestamp, zero
volume) any number of additional times leaves the store — hence the resulting
candle's open, high, low and close — exactly as after the single
application; in particular `open` is unchanged after the first tick of the
bucket. -/
theorem C6_identical_tick_replay (s : CandleStore) (px : ℚ) (ts : Nat)
    (hnd : keysNodup s) (hlen : s.length < MAX_MINUTES) :
    (∀ n : Nat, (updateCandle px ts 0)^[n] (updateCandle px ts 0 s) =
       updateCandle px ts 0 s) ∧
    (∀ cd : CandleV, lookupKey (minuteStart ts) s = some cd →
       (lookupKey (minuteStart ts) (updateCandle px ts 0 s)).map CandleV.o =
         some cd.o) := by
  constructor
  · intro n
    exact Function.iterate_fixed (updateCandle_replay_fixed px ts s hnd hlen) n
  · intro cd hcd
    have hx := (C1_candle_update_semantics s px 0 ts hlen).2.2.1 cd hcd
    rw [hx]
    rfl

/-- Witness for C6 at a concrete input: the empty store has distinct keys and
fewer than `MAX_MINUTES` entries, and the theorem applied there gives the
replay-idempotence facts. -/
theorem C6_identical_tick_replay_witness :
    keysNodup ([] : CandleStore) ∧ ([] : CandleStore).length < MAX_MINUTES ∧
    ((∀ n : Nat, (updateCandle 7 30000 0)^[n] (updateCandle 7 30000 0 []) =
        updateCandle 7 30000 0 []) ∧
     (∀ cd : CandleV, lookupKey (minuteStart 30000) ([] : CandleStore) = some cd →
        (lookupKey (minuteStart 30000) (updateCandle 7 30000 0 [])).map CandleV.o =
          some cd.o)) :=
  ⟨List.nodup_nil, by decide,
   C6_identical_tick_replay [] 7 30000 List.nodup_nil (by decide)⟩


/-- One fill row as consumed by `get_order` in `bridge/app.py`: `price`,
`size` and `commission` are the parsed Decimal values (the source parses a
missing or malformed field to `0`), `sizeInQuote` is the `size_in_quote`
flag, and `status` is `f.get("order_status") or f.get("status")`. -/
structure Fill where
  price : ℚ
  size : ℚ
  commission : ℚ
  sizeInQuote : Bool
  status : Option String
deriving Repr

/-- One iteration of the aggregation loop of `get_order` (`bridge/app.py`):
a quote-denominated fill contributes `size / price` base units (or `0` when
`price ≤ 0`) and `size` notional; a base fill contributes `size` base units
and `size * price` notional; commissions accumulate; a non-empty status
string overwrites the running status. -/
def fillStep (acc : ℚ × ℚ × ℚ × String) (f : Fill) : ℚ × ℚ × ℚ × String :=
  let base := if f.sizeInQuote then (if f.price > 0 then f.size / f.price else 0) else f.size
  let nt := if f.sizeInQuote then f.size else f.size * f.price
  let st :=
    match f.status with
    | some s => if s = "" then acc.2.2.2 else s
    | none => acc.2.2.2
  (acc.1 + base, acc.2.1 + nt, acc.2.2.1 + f.commission, st)

/-- The summary returned by `get_order` in `bridge/app.py` (status,
`filled_size`, `average_filled_price`, `commission_total_usd`). -/
structure OrderSummary where
  status : String
  filledSize : ℚ
  avgPrice : ℚ
  feeTotal : ℚ
deriving Repr

/-- `get_order` fill aggregation from `bridge/app.py`: zeros and status
`UNKNOWN` when no fills were returned; otherwise fold the fills and set
`avg_price = total_notional / total_base` when `total_base > 0`, else `0`. -/
def getOrderSummary (fills : List Fill) : OrderSummary :=
  if fills.isEmpty then ⟨("UNKNOWN"), 0, 0, 0⟩
  else
    let r := fills.foldl fillStep (0, 0, 0, ("UNKNOWN"))
    ⟨r.2.2.2, r.1, if r.1 > 0 then r.2.1 / r.1 else 0, r.2.2.1⟩

/-- The claimed base-unit normalization of one fill: a quote-denominated
fill is converted to base units using that fill's own price. -/
def fillBase (f : Fill) : ℚ := if f.sizeInQuote then f.size / f.price else f.size

theorem fillStep_foldl (fills : List Fill) :
    ∀ tb tn tc st, fills.foldl fillStep (tb, tn, tc, st) =
      (tb + (fills.map (fun f =>
          if f.sizeInQuote then (if f.price > 0 then f.size / f.price else 0)
          else f.size)).sum,
       tn + (fills.map (fun f => if f.sizeInQuote then f.size else f.size * f.price)).sum,
       tc + (fills.map Fill.commission).sum,
       fills.foldl (fun acc f =>
         match f.status with
         | some s => if s = "" then acc else s
         | none => acc) st) := by
  induction fills with
  | nil => intro tb tn tc st; simp
  | cons f rest ih =>
      intro tb tn tc st
      simp only [List.foldl_cons, List.map_cons, List.sum_cons, fillStep]
      rw [ih]
      simp only [Prod.mk.injEq]
      exact ⟨by ring, by ring, by ring, trivial⟩

/-- Claim C2: for every order lookup whose fetched fills list is non-empty
(with well-formed fills: non-negative sizes, and a positive price on every
quote-denominated fill so its base conversion is defined), the returned
summary has `filled_size = Σ` base-normalized sizes (a quote fill converted
with its own price), `average_filled_price = Σ(size_base · price) /
filled_size`, and `total_fee = Σ` fill fees; with no fills the average is
`0`. -/
theorem C2_fill_aggregation (fills : List Fill)
    (hne : fills ≠ [])
    (hsz : ∀ f ∈ fills, 0 ≤ f.size)
    (hq : ∀ f ∈ fills, f.sizeInQuote = true → 0 < f.price) :
    (getOrderSummary fills).filledSize = (fills.map fillBase).sum ∧
    (getOrderSummary fills).avgPrice =
      (fills.map (fun f => fillBase f * f.price)).sum / (fills.map fillBase).sum ∧
    (getOrderSummary fills).feeTotal = (fills.map Fill.commission).sum ∧
    (getOrderSummary ([] : List Fill)).avgPrice = 0 := by
  have hbase : fills.map (fun f =>
      if f.sizeInQuote then (if f.price > 0 then f.size / f.price else 0) else f.size) =
      fills.map fillBase := by
    apply List.map_congr_left
    intro f hf
    unfold fillBase
    by_cases hqf : f.sizeInQuote
    · rw [if_pos hqf, if_pos hqf, if_pos (hq f hf hqf)]
    · rw [if_neg hqf, if_neg hqf]
  have hnt : fills.map (fun f => if f.sizeInQuote then f.size else f.size * f.price) =
      fills.map (fun f => fillBase f * f.price) := by
    apply List.map_congr_left
    intro f hf
    unfold fillBase
    by_cases hqf : f.sizeInQuote
    · rw [if_pos hqf, if_pos hqf]
      exact (div_mul_cancel₀ f.size (ne_of_gt (hq f hf hqf))).symm
    · rw [if_neg hqf, if_neg hqf]
  have hnn : 0 ≤ (fills.map fillBase).sum := by
    apply List.sum_nonneg
    intro x hx
    rcases List.mem_map.mp hx with ⟨f, hf, rfl⟩
    unfold fillBase
    by_cases hqf : f.sizeInQuote
    · rw [if_pos hqf]
      exact div_nonneg (hsz f hf) (hq f hf hqf).le
    · rw [if_neg hqf]
      exact hsz f hf
  have hemp : fills.isEmpty = false := by
    cases fills with
    | nil => exact absurd rfl hne
    | cons a l => rfl
  simp only [getOrderSummary, hemp, Bool.false_eq_true, if_false,
    fillStep_foldl fills 0 0 0, zero_add, List.isEmpty_nil, if_true]
  rw [hbase, hnt]
  refine ⟨by trivial, ?_, by trivial, by trivial⟩
  by_cases hpos : (fills.map fillBase).sum > 0
  · rw [if_pos hpos]
  · rw [if_neg hpos]
    have hz : (fills.map fillBase).sum = 0 := le_antisymm (not_lt.mp hpos) hnn
    rw [hz, div_zero]

/-- The two-fill example of claim C2: `[(price=100, size=1),
(price=110, size=1)]`, both base-denominated and fee-free. -/
def exampleFills : List Fill :=
  [⟨100, 1, 0, false, none⟩, ⟨110, 1, 0, false, none⟩]

/-- Witness for C2 at the claim's example fills; additionally evaluates the
example to `filled_size = 2` and `weighted_avg_price = 105`. -/
theorem C2_fill_aggregation_witness :
    exampleFills ≠ [] ∧ (∀ f ∈ exampleFills, 0 ≤ f.size) ∧
    (∀ f ∈ exampleFills, f.sizeInQuote = true → 0 < f.price) ∧
    ((getOrderSummary exampleFills).filledSize = (exampleFills.map fillBase).sum ∧
     (getOrderSummary exampleFills).avgPrice =
       (exampleFills.map (fun f => fillBase f * f.price)).sum /
         (exampleFills.map fillBase).sum ∧
     (getOrderSummary exampleFills).feeTotal = (exampleFills.map Fill.commission).sum ∧
     (getOrderSummary ([] : List Fill)).avgPrice = 0) ∧
    (getOrderSummary exampleFills).filledSize = 2 ∧
    (getOrderSummary exampleFills).avgPrice = 105 :=
  ⟨by simp [exampleFills],
   by
    intro f hf
    simp only [exampleFills, List.mem_cons, List.not_mem_nil, or_false] at hf
    rcases hf with rfl | rfl <;> norm_num,
   by
    intro f hf hqf
    simp only [exampleFills, List.mem_cons, List.not_mem_nil, or_false] at hf
    rcases hf with rfl | rfl <;> simp at hqf,
   C2_fill_aggregation exampleFills (by simp [exampleFills])
     (by
       intro f hf
       simp only [exampleFills, List.mem_cons, List.not_mem_nil, or_false] at hf
       rcases hf with rfl | rfl <;> norm_num)
     (by
       intro f hf hqf
       simp only [exampleFills, List.mem_cons, List.not_mem_nil, or_false] at hf
       rcases hf with rfl | rfl <;> simp at hqf),
   by norm_num [getOrderSummary, exampleFills, fillStep],
   by norm_num [getOrderSummary, exampleFills, fillStep]⟩

/-- Default `STALE_MS = 3000` from `bridge/bridge_ws.py` (and the HitBTC and
Binance bridges). -/
def STALE_MS : ℤ := 3000

/-- The JSON returned by `GET /price` of `bridge/bridge_ws.py`. -/
structure WsPriceResp where
  price : ℚ
  tsMs : Option ℤ
  stale : Bool
deriving DecidableEq, Repr

/-- The `price` endpoint of `bridge/bridge_ws.py`: `stale` starts `True`, and
when `last_ts_ms` is set it becomes `max(0, now - last_ts_ms) > STALE_MS`;
the price is `float(last_price)` when set, else `0.0`. -/
def wsPriceEndpoint (lastPrice : Option ℚ) (lastTsMs : Option ℤ) (nowMs : ℤ) :
    WsPriceResp :=
  match lastTsMs with
  | none => { price := lastPrice.getD 0, tsMs := none, stale := true }
  | some ts =>
      { price := lastPrice.getD 0, tsMs := some ts,
        stale := decide (max 0 (nowMs - ts) > STALE_MS) }

/-- Default `COINBASE_WS_STALE_SEC = 10` from `bridge/app.py`. -/
def WS_STALE_SEC : ℤ := 10

/-- The JSON returned by `GET /price` of `bridge/app.py`: either the
`no_tick` error object or a tick response with price and staleness. -/
inductive AppPriceResp where
  | noTick (productId : String)
  | tick (productId : String) (price : ℚ) (stale : Bool)
deriving DecidableEq, Repr

/-- `_last_ticks.get(product_id)` from `bridge/app.py`. -/
def lookupTick (pid : String) : List (String × ℚ × ℤ) → Option (ℚ × ℤ)
  | [] => none
  | t :: rest => if t.1 = pid then some t.2 else lookupTick pid rest

/-- The `price` endpoint of `bridge/app.py`: with no recorded tick for the
product it returns the `no_tick` error object; otherwise
`stale = (now - ts) > WS_STALE_SEC`. -/
def appPriceEndpoint (ticks : List (String × ℚ × ℤ)) (pid : String) (nowS : ℤ) :
    AppPriceResp :=
  match lookupTick pid ticks with
  | none => AppPriceResp.noTick pid
  | some r => AppPriceResp.tick pid r.1 (decide (nowS - r.2 > WS_STALE_SEC))

/-- Counterexample to claim C4 as stated: when no tick has ever been
accepted, the `price` endpoint of `bridge/app.py` does not answer with
price `0` and `stale = true` — it returns the `no_tick` error object, which
is a different response from any price/stale answer. -/
theorem C4_counterexample :
    appPriceEndpoint [] ("BTC-USD") 0 = AppPriceResp.noTick ("BTC-USD") ∧
    AppPriceResp.noTick ("BTC-USD") ≠ AppPriceResp.tick ("BTC-USD") 0 true :=
  ⟨rfl, fun h => AppPriceResp.noConfusion h⟩

/-- Amended claim C4: on both price stores the stale flag is true exactly
when `now - last_update_time > threshold`; with no tick ever accepted, the
generic WS bridge returns price `0` with `stale = true`, while the coinbase
facade of `bridge/app.py` instead returns its `no_tick` error object. -/
theorem C4_price_staleness (lastPrice : Option ℚ) (ts nowMs nowS : ℤ) (pid : String) :
    ((wsPriceEndpoint lastPrice (some ts) nowMs).stale = true ↔
      nowMs - ts > STALE_MS) ∧
    wsPriceEndpoint none none nowMs = { price := 0, tsMs := none, stale := true } ∧
    appPriceEndpoint [] pid nowS = AppPriceResp.noTick pid := by
  refine ⟨?_, rfl, rfl⟩
  simp only [wsPriceEndpoint, decide_eq_true_eq, gt_iff_lt, lt_max_iff]
  norm_num [STALE_MS]

/-- `_minute_start` from `bridge_hitbtc/ws_hitbtc.py` (and
`bridge_binance/ws_binance.py`): millisecond bucket keys. -/
def minuteStartH (tsMs : Nat) : Nat := tsMs / 60000 * 60000

/-- The default `max_minutes = 6000` of `_trim_old` in
`bridge_hitbtc/ws_hitbtc.py`. -/
def MAX_MINUTES_H : Nat := 6000

/-- `_trim_old` from `bridge_hitbtc/ws_hitbtc.py`: pop
`sorted(candles.keys())[:-max_minutes]`, i.e. the smallest
`len - max_minutes` keys, when over capacity. -/
def trimOldH (s : CandleStore) : CandleStore :=
  if s.length ≤ MAX_MINUTES_H then s
  else
    s.filter fun p =>
      decide (p.1 ∉ (List.insertionSort (· ≤ ·) (storeKeys s)).take
        (s.length - MAX_MINUTES_H))

/-- `_update_candle` from `bridge_hitbtc/ws_hitbtc.py`: same bucket logic as
the generic bridge (`nh = px if px > h else h`, `nl = px if px < l else l`,
close overwritten, volume accumulated), with millisecond keys, then trim. -/
def updateCandleH (px : ℚ) (tsMs : Nat) (vol : ℚ) (s : CandleStore) : CandleStore :=
  trimOldH
    (match lookupKey (minuteStartH tsMs) s with
     | none => s ++ [(minuteStartH tsMs, ⟨px, px, px, px, vol⟩)]
     | some cd =>
         s.map fun p =>
           if p.1 = minuteStartH tsMs then
             (minuteStartH tsMs,
               ⟨cd.o, if px > cd.h then px else cd.h, if px < cd.l then px else cd.l,
                px, cd.v + vol⟩)
           else p)

/-- The module-level mutable tick state of `bridge_hitbtc/ws_hitbtc.py`:
`last_price`, `last_ts_ms` and the `candles` dictionary. -/
structure HitbtcState where
  lastPrice : Option ℚ
  lastTsMs : Option Nat
  candles : CandleStore
deriving Repr

/-- Character-level lowercase of a string (`str.lower()` for the ASCII
values involved), written over the character list so it evaluates. -/
def lowerAscii (s : String) : String := String.mk (s.data.map Char.toLower)

/-- `HEARTBEAT_TOUCH_TS = os.getenv("HEARTBEAT_TOUCH_TS", "false").lower()
== "true"` from `bridge_hitbtc/ws_hitbtc.py`; the argument is the optional
environment value. -/
def heartbeatTouchTs (env : Option String) : Bool :=
  lowerAscii (env.getD ("false")) == ("true")

/-- One iteration of `_keepalive_loop` from `bridge_hitbtc/ws_hitbtc.py`
past its sleep: skip when no price was ever received; otherwise update the
candle at the current time with the last price and volume `0`, and touch
`last_ts_ms` only when `HEARTBEAT_TOUCH_TS` is set. -/
def keepaliveIter (touchTs : Bool) (nowMs : Nat) (st : HitbtcState) : HitbtcState :=
  match st.lastPrice with
  | none => st
  | some px =>
      { lastPrice := st.lastPrice
        lastTsMs := if touchTs then some nowMs else st.lastTsMs
        candles := updateCandleH px nowMs 0 st.candles }

/-- The accepted-tick update of `_ws_loop` in `bridge_hitbtc/ws_hitbtc.py`:
`last_price = px; last_ts_ms = now_ms; _update_candle(px, ts_for_px, 0.0)`. -/
def wsApplyTick (st : HitbtcState) (px : ℚ) (tsForPx nowMs : Nat) : HitbtcState :=
  { lastPrice := some px
    lastTsMs := some nowMs
    candles := updateCandleH px tsForPx 0 st.candles }

/-- Claim C10: with `HEARTBEAT_TOUCH_TS` unset (hence false), every
keepalive iteration that runs after at least one tick updates the candle
series at the current time with the last known price but leaves
`last_ts_ms` (and `last_price`) unchanged; only a real websocket tick sets
`last_ts_ms` to the receipt time. -/
theorem C10_heartbeat_frame (st : HitbtcState) (px : ℚ) (nowMs : Nat)
    (h : st.lastPrice = some px) :
    heartbeatTouchTs none = false ∧
    (keepaliveIter (heartbeatTouchTs none) nowMs st).lastTsMs = st.lastTsMs ∧
    (keepaliveIter (heartbeatTouchTs none) nowMs st).lastPrice = st.lastPrice ∧
    (keepaliveIter (heartbeatTouchTs none) nowMs st).candles =
      updateCandleH px nowMs 0 st.candles ∧
    (∀ px2 ts2, (wsApplyTick st px2 ts2 nowMs).lastTsMs = some nowMs) := by
  have htouch : heartbeatTouchTs none = false := by decide
  refine ⟨htouch, ?_, ?_, ?_, fun px2 ts2 => rfl⟩ <;>
    simp [keepaliveIter, htouch, h]

/-- Witness for C10 at a concrete state that has received one tick. -/
theorem C10_heartbeat_frame_witness :
    ({ lastPrice := some 5, lastTsMs := some 123, candles := [] } :
        HitbtcState).lastPrice = some 5 ∧
    (heartbeatTouchTs none = false ∧
     (keepaliveIter (heartbeatTouchTs none) 60123
        { lastPrice := some 5, lastTsMs := some 123, candles := [] }).lastTsMs =
       ({ lastPrice := some 5, lastTsMs := some 123, candles := [] } :
         HitbtcState).lastTsMs ∧
     (keepaliveIter (heartbeatTouchTs none) 60123
        { lastPrice := some 5, lastTsMs := some 123, candles := [] }).lastPrice =
       ({ lastPrice := some 5, lastTsMs := some 123, candles := [] } :
         HitbtcState).lastPrice ∧
     (keepaliveIter (heartbeatTouchTs none) 60123
        { lastPrice := some 5, lastTsMs := some 123, candles := [] }).candles =
       updateCandleH 5 60123 0
         ({ lastPrice := some 5, lastTsMs := some 123, candles := [] } :
           HitbtcState).candles ∧
     (∀ px2 ts2,
        (wsApplyTick
            { lastPrice := some 5, lastTsMs := some 123, candles := [] }
            px2 ts2 60123).lastTsMs = some 60123)) :=
  ⟨rfl, C10_heartbeat_frame { lastPrice := some 5, lastTsMs := some 123, candles := [] }
    5 60123 rfl⟩

/-- `Int.floor`-based ROUND_HALF_EVEN: the rounding Python's
`Decimal.quantize` applies by default. -/
def roundHalfEven (q : ℚ) : ℤ :=
  if q - (Int.floor q : ℚ) < 1 / 2 then Int.floor q
  else if q - (Int.floor q : ℚ) > 1 / 2 then Int.floor q + 1
  else if Int.floor q % 2 = 0 then Int.floor q else Int.floor q + 1

/-- `Decimal.quantize(Decimal("0.00000001"))` from the SELL fallback of
`order_market` (`bridge/app.py`): round to 8 decimal places, half to even. -/
def quantize8 (q : ℚ) : ℚ := (roundHalfEven (q * 10 ^ 8) : ℚ) / 10 ^ 8

/-- The kinds of exception a `RESTClient` call can raise as seen by
`order_market` in `bridge/app.py`: a `TypeError`-style shape mismatch, a
business rejection from the exchange, or a transport failure.  The SELL
path's `except Exception` does not distinguish them. -/
inductive CallErr where
  | shapeMismatch (msg : String)
  | rejection (msg : String)
  | transport (msg : String)
deriving DecidableEq, Repr

/-- The behaviour of the SDK during one `order_market` SELL request: the
outcome of `market_order_sell(quote_size=...)`, of `_get_price`, and of
`market_order_sell(base_size=...)` as a function of the submitted size. -/
structure SellClient where
  sellQuote : Except CallErr String
  price : Except CallErr ℚ
  sellBase : ℚ → Except CallErr String

/-- One submission attempt `order_market` performs. -/
inductive SellAttempt where
  | quoteSized
  | baseSized (baseSize : ℚ)
deriving DecidableEq, Repr

/-- The SELL path of `order_market` in `bridge/app.py`, returning the list
of submission attempts in order together with the final outcome: try
`market_order_sell(quote_size=...)` first; on any exception fetch the
current price and resubmit with
`base_size = (quote_size / price).quantize(Decimal("0.00000001"))`; a
`_get_price` failure propagates without a second submission. -/
def orderMarketSell (c : SellClient) (quoteSize : ℚ) :
    List SellAttempt × Except CallErr String :=
  match c.sellQuote with
  | Except.ok r => ([SellAttempt.quoteSized], Except.ok r)
  | Except.error _ =>
      match c.price with
      | Except.error e => ([SellAttempt.quoteSized], Except.error e)
      | Except.ok px =>
          ([SellAttempt.quoteSized,
            SellAttempt.baseSized (quantize8 (quoteSize / px))],
           c.sellBase (quantize8 (quoteSize / px)))

/-- A client whose notional-sized SELL call fails with a business rejection
(insufficient balance) — not a shape mismatch — while price lookup and the
base-sized call succeed. -/
def rejectingSellClient : SellClient :=
  { sellQuote := Except.error (CallErr.rejection ("insufficient balance"))
    price := Except.ok 100
    sellBase := fun _ => Except.ok ("order-2") }

/-- Counterexample to claim C3 as stated: after a business rejection of the
primary notional-sized call, `order_market` still attempts the
base-quantity fallback, because its `except Exception` clause catches every
failure, not only shape mismatches. -/
theorem C3_counterexample :
    (orderMarketSell rejectingSellClient 10).1 =
      [SellAttempt.quoteSized, SellAttempt.baseSized (quantize8 (10 / 100))] := rfl

/-- Amended claim C3: the notional-sized call is always attempted first and
the fallback is never attempted pre-emptively, but the base-quantity
fallback is triggered by any failure of the primary call — a business
rejection included — whenever the reference price is obtainable; the
resubmitted base size is `quote_size / price` rounded to 8 decimals. -/
theorem C3_fallback_on_any_failure (c : SellClient) (quoteSize : ℚ) :
    (orderMarketSell c quoteSize).1.head? = some SellAttempt.quoteSized ∧
    ((∃ b, SellAttempt.baseSized b ∈ (orderMarketSell c quoteSize).1) ↔
      ((∃ e, c.sellQuote = Except.error e) ∧ ∃ px, c.price = Except.ok px)) ∧
    (∀ e px, c.sellQuote = Except.error e → c.price = Except.ok px →
      SellAttempt.baseSized (quantize8 (quoteSize / px)) ∈
        (orderMarketSell c quoteSize).1) := by
  cases hq : c.sellQuote with
  | ok r =>
      refine ⟨by simp [orderMarketSell, hq], ?_, ?_⟩
      · simp [orderMarketSell, hq]
      · intro e px he _
        exact Except.noConfusion he
  | error e0 =>
      cases hp : c.price with
      | error ep =>
          refine ⟨by simp [orderMarketSell, hq, hp], ?_, ?_⟩
          · simp [orderMarketSell, hq, hp]
          · intro e px _ hpx
            exact Except.noConfusion hpx
      | ok px0 =>
          refine ⟨by simp [orderMarketSell, hq, hp], ?_, ?_⟩
          · simp only [orderMarketSell, hq, hp]
            constructor
            · intro _
              exact ⟨⟨e0, rfl⟩, ⟨px0, rfl⟩⟩
            · intro _
              exact ⟨quantize8 (quoteSize / px0), by simp⟩
          · intro e px _ hpx
            injection hpx with hpx2
            subst hpx2
            simp [orderMarketSell, hq, hp]

/-- Witness for C3's amended theorem at the rejecting client. -/
theorem C3_fallback_on_any_failure_witness :
    (orderMarketSell rejectingSellClient 10).1.head? = some SellAttempt.quoteSized ∧
    ((∃ b, SellAttempt.baseSized b ∈ (orderMarketSell rejectingSellClient 10).1) ↔
      ((∃ e, rejectingSellClient.sellQuote = Except.error e) ∧
        ∃ px, rejectingSellClient.price = Except.ok px)) ∧
    (∀ e px, rejectingSellClient.sellQuote = Except.error e →
      rejectingSellClient.price = Except.ok px →
      SellAttempt.baseSized (quantize8 (10 / px)) ∈
        (orderMarketSell rejectingSellClient 10).1) :=
  C3_fallback_on_any_failure rejectingSellClient 10

/-- The selection loop of `candles_endpoint` in `bridge/bridge_ws.py`: walk
the sorted minutes, skip buckets outside `[lo, hi]`, emit rows and stop once
`limit` rows have been produced (`count` entering at `0`). -/
def collectRows (store : CandleStore) (lo hi limit : Nat) :
    List Nat → Nat → List (Nat × CandleV)
  | [], _ => []
  | m :: rest, count =>
      if m < lo ∨ hi < m then collectRows store lo hi limit rest count
      else if limit ≤ count + 1 then [(m, (lookupKey m store).getD ⟨0, 0, 0, 0, 0⟩)]
      else (m, (lookupKey m store).getD ⟨0, 0, 0, 0, 0⟩) ::
        collectRows store lo hi limit rest (count + 1)

/-- `candles_endpoint` from `bridge/bridge_ws.py`: a non-minute granularity
or an empty store answers `[]`; a missing `end` defaults to now and a
missing `start` to `end - limit*60 - 5`; the rows come from the in-memory
store only — this endpoint performs no REST backfill. -/
def wsCandlesEndpoint (store : CandleStore) (granularity : String) (limit : Nat)
    (startQ endQ : Option Nat) (nowS : Nat) : List (Nat × CandleV) :=
  if granularity ≠ ("ONE_MINUTE") then []
  else if (List.insertionSort (· ≤ ·) (storeKeys store)).isEmpty then []
  else
    collectRows store (startQ.getD ((endQ.getD nowS) - limit * 60 - 5))
      (endQ.getD nowS) limit (List.insertionSort (· ≤ ·) (storeKeys store)) 0

/-- One well-shaped Binance kline row
`[openTime(ms), open, high, low, close, volume, ...]` as consumed by the
legacy mode of `get_candles` in `bridge_binance/ws_binance.py`; a malformed
upstream row is `none`. -/
structure Kline where
  openTimeMs : Nat
  o : ℚ
  h : ℚ
  l : ℚ
  c : ℚ
  v : ℚ
deriving DecidableEq, Repr

/-- The legacy-mode normalization loop of `get_candles` in
`bridge_binance/ws_binance.py`: each valid upstream kline becomes one
candle object with `start = openTime // 1000`; malformed rows are skipped.
The function never consults the in-memory candle store. -/
def binanceLegacyCandles : List (Option Kline) → List (Nat × CandleV)
  | [] => []
  | none :: rest => binanceLegacyCandles rest
  | some k :: rest =>
      (k.openTimeMs / 1000, ⟨k.o, k.h, k.l, k.c, k.v⟩) :: binanceLegacyCandles rest

/-- Counterexample to claim C7 as stated: immediately after process start
(empty in-memory store) the generic bridge answers a minute-candle range
query with the empty list — no read-through REST backfill happens and the
caller is left without data. -/
theorem C7_counterexample :
    wsCandlesEndpoint [] ("ONE_MINUTE") 350 none none 1000000 = [] := rfl

/-- Amended claim C7: the generic WS bridge serves `/candles` only from its
in-memory store and returns an empty list whenever the store has no
coverage (such as right after start); the Binance bridge instead always
forwards the range query to the exchange's historical REST endpoint and
answers with one normalized candle per valid upstream kline, independent of
any in-memory state. -/
theorem C7_cold_start (rows : List (Option Kline)) (limit nowS : Nat)
    (startQ endQ : Option Nat) :
    wsCandlesEndpoint [] ("ONE_MINUTE") limit startQ endQ nowS = [] ∧
    binanceLegacyCandles rows =
      rows.reduceOption.map
        (fun k => (k.openTimeMs / 1000, ⟨k.o, k.h, k.l, k.c, k.v⟩)) ∧
    (binanceLegacyCandles rows).length = rows.reduceOption.length := by
  have hmap : binanceLegacyCandles rows =
      rows.reduceOption.map
        (fun k => (k.openTimeMs / 1000, (⟨k.o, k.h, k.l, k.c, k.v⟩ : CandleV))) := by
    induction rows with
    | nil => rfl
    | cons r rest ih =>
        cases r with
        | none => simpa [binanceLegacyCandles, List.reduceOption] using ih
        | some k => simpa [binanceLegacyCandles, List.reduceOption] using ih
  exact ⟨rfl, hmap, by rw [hmap, List.length_map]⟩

/-- The cancel methods available on the `RESTClient` as probed by
`cancel_order` in `bridge/app.py`: `none` models an absent method,
otherwise the outcome of calling it. -/
structure CancelClient where
  cancelOrders : Option (Except CallErr String)
  cancelOrder : Option (Except CallErr String)

/-- The response of `DELETE /order/{id}` in `bridge/app.py`. -/
inductive CancelResp where
  | ack (status : String) (response : Option String)
  | httpError (msg : String)
deriving DecidableEq, Repr

/-- `cancel_order` from `bridge/app.py`: try `cancel_orders` then
`cancel_order`, each inside `try/except: pass`; return a
`cancel_requested` acknowledgment on the first success, a best-effort
`cancel_attempted` acknowledgment when every attempted call failed, and an
HTTP error only when the client has no cancel method at all. -/
def cancelOrderEndpoint (c : CancelClient) : CancelResp :=
  match c.cancelOrders with
  | some (Except.ok r) => CancelResp.ack ("cancel_requested") (some r)
  | _ =>
      match c.cancelOrder with
      | some (Except.ok r) => CancelResp.ack ("cancel_requested") (some r)
      | some (Except.error _) => CancelResp.ack ("cancel_attempted") none
      | none =>
          match c.cancelOrders with
          | some _ => CancelResp.ack ("cancel_attempted") none
          | none => CancelResp.httpError ("No cancel method on RESTClient")

/-- An upstream failure as raised inside `order_cancel` of
`bridge_hitbtc/ws_hitbtc.py`: an `HTTPException` with status and detail, or
any other exception. -/
inductive UpstreamErr where
  | http (status : Nat) (detail : String)
  | other (msg : String)
deriving DecidableEq, Repr

/-- `order_cancel` from `bridge_hitbtc/ws_hitbtc.py`: pass an upstream
`HTTPException` through to the caller, convert any other failure to a 502,
and return the `ok` acknowledgment only when the upstream DELETE
succeeded.  The argument is the outcome of `_cancel_order(order_id)`. -/
def hitbtcOrderCancel (upstream : Except UpstreamErr String) :
    Except UpstreamErr String :=
  match upstream with
  | Except.ok _ => Except.ok ("ok")
  | Except.error (UpstreamErr.http st d) => Except.error (UpstreamErr.http st d)
  | Except.error (UpstreamErr.other m) =>
      Except.error (UpstreamErr.http 502 (("cancel failed: ") ++ m))

/-- Claim C8 settled against the code: canceling an already-terminal order
on the HitBTC bridge (upstream answers HTTP 400) raises that error to the
caller — contradicting both the claim and the endpoint's own docstring
(`Idempotent.`) — while the coinbase facade of `bridge/app.py` behaves as
claimed: whenever any cancel method exists it returns an acknowledgment
(`cancel_requested` or `cancel_attempted`) that never asserts success, and
it raises only when no cancel method exists at all. -/
theorem C8_cancel_idempotence_eval :
    hitbtcOrderCancel (Except.error (UpstreamErr.http 400 ("order not found"))) =
      Except.error (UpstreamErr.http 400 ("order not found")) ∧
    (∀ c : CancelClient,
      (cancelOrderEndpoint c = CancelResp.httpError ("No cancel method on RESTClient") ↔
        (c.cancelOrders = none ∧ c.cancelOrder = none))) ∧
    (∀ c : CancelClient,
      (∃ r, cancelOrderEndpoint c = CancelResp.ack ("cancel_requested") (some r)) ∨
      cancelOrderEndpoint c = CancelResp.ack ("cancel_attempted") none ∨
      cancelOrderEndpoint c = CancelResp.httpError ("No cancel method on RESTClient")) := by
  refine ⟨rfl, ?_, ?_⟩
  · rintro ⟨co, c1⟩
    rcases co with _ | co0
    · rcases c1 with _ | c10
      · simp [cancelOrderEndpoint]
      · rcases c10 with r2 | e2 <;> simp [cancelOrderEndpoint]
    · rcases co0 with r | e
      · rcases c1 with _ | c10
        · simp [cancelOrderEndpoint]
        · rcases c10 with r2 | e2 <;> simp [cancelOrderEndpoint]
      · rcases c1 with _ | c10
        · simp [cancelOrderEndpoint]
        · rcases c10 with r2 | e2 <;> simp [cancelOrderEndpoint]
  · rintro ⟨co, c1⟩
    rcases co with _ | co0
    · rcases c1 with _ | c10
      · exact Or.inr (Or.inr rfl)
      · rcases c10 with e2 | r2
        · exact Or.inr (Or.inl rfl)
        · exact Or.inl ⟨r2, rfl⟩
    · rcases co0 with e | r
      · rcases c1 with _ | c10
        · exact Or.inr (Or.inl rfl)
        · rcases c10 with e2 | r2
          · exact Or.inr (Or.inl rfl)
          · exact Or.inl ⟨r2, rfl⟩
      · exact Or.inl ⟨r, rfl⟩

/-- One account row as consumed by the balance summers: the
`available_balance` currency, its parsed decimal value (`none` when the
string does not parse), and the hold/locked amount reported next to it. -/
structure AcctBal where
  currency : String
  value : Option ℚ
  hold : ℚ
deriving Repr

/-- `_sum_available` from `bridge/app.py`: sum the parsed
`available_balance.value` of every account whose currency matches exactly,
skipping unparsable values; `0` for the empty currency. -/
def coinbaseSumAvailable (cur : String) (accts : List AcctBal) : ℚ :=
  if cur = "" then 0
  else accts.foldl (fun t a => if a.currency = cur then t + a.value.getD 0 else t) 0

/-- Character-level uppercase of a string (`str.upper()` for the ASCII
values involved). -/
def upperAscii (s : String) : String := String.mk (s.data.map Char.toUpper)

/-- `_sum_available` from `bridge_binance/ws_binance.py` (the
`bridge_hitbtc/ws_hitbtc.py` copy is the same loop): return the value of
the FIRST account whose uppercased currency equals the uppercased asset —
the loop returns inside its first match — and `0` when none matches. -/
def binanceSumAvailable (accts : List AcctBal) (asset : String) : ℚ :=
  match accts.find? (fun a => upperAscii a.currency == upperAscii asset) with
  | some a => a.value.getD 0
  | none => 0

/-- Two sub-account entries for the same asset. -/
def dupAccts : List AcctBal := [⟨("BTC"), some 1, 0⟩, ⟨("BTC"), some 2, 0⟩]

/-- Counterexample to claim C9 as stated: with two sub-account entries for
`BTC` holding `1` and `2`, the Binance/HitBTC `_sum_available` returns the
first matching entry's value `1`, not the sum `3` of all entries. -/
theorem C9_counterexample :
    binanceSumAvailable dupAccts ("BTC") = 1 ∧
    ((dupAccts.filter fun a => decide (a.currency = ("BTC"))).map
      (fun a => a.value.getD 0)).sum = 3 ∧
    (1 : ℚ) ≠ 3 := by
  refine ⟨?_, ?_, by norm_num⟩
  · rfl
  · norm_num [dupAccts]

theorem coinbase_sum_foldl (cur : String) (accts : List AcctBal) :
    ∀ t : ℚ, accts.foldl (fun t a => if a.currency = cur then t + a.value.getD 0 else t) t
      = t + ((accts.filter fun a => decide (a.currency = cur)).map
          (fun a => a.value.getD 0)).sum := by
  induction accts with
  | nil => intro t; simp
  | cons a rest ih =>
      intro t
      by_cases ha : a.currency = cur
      · rw [List.foldl_cons, if_pos ha,
          List.filter_cons_of_pos (by simp [ha]), List.map_cons, List.sum_cons, ih]
        ring
      · rw [List.foldl_cons, if_neg ha,
          List.filter_cons_of_neg (by simp [ha]), ih]

theorem filter_map_proj {α β : Type} (g : α → α) (p : α → Bool) (v : α → β)
    (hp : ∀ a, p (g a) = p a) (hv : ∀ a, v (g a) = v a) :
    ∀ l : List α, ((l.map g).filter p).map v = (l.filter p).map v := by
  intro l
  induction l with
  | nil => rfl
  | cons a rest ih =>
      cases hpa : p a
      · rw [List.map_cons, List.filter_cons_of_neg (by rw [hp]; simp [hpa]),
          List.filter_cons_of_neg (by simp [hpa]), ih]
      · rw [List.map_cons, List.filter_cons_of_pos (by rw [hp]; simp [hpa]),
          List.filter_cons_of_pos (by simp [hpa]), List.map_cons, List.map_cons, hv, ih]

/-- Amended claim C9: the coinbase facade's `_sum_available` returns the
exact sum of the available entries of every matching sub-account, and
hold/locked amounts never enter that sum; the Binance and HitBTC bridges
instead return the first matching account's available value, which
coincides with the sum of all matching entries only when at most one entry
matches the asset. -/
theorem C9_available_balance (cur : String) (accts : List AcctBal)
    (hcur : cur ≠ ("")) :
    coinbaseSumAvailable cur accts =
      ((accts.filter fun a => decide (a.currency = cur)).map
        (fun a => a.value.getD 0)).sum ∧
    (∀ x : ℚ, coinbaseSumAvailable cur
        (accts.map fun a => { currency := a.currency, value := a.value, hold := x }) =
      coinbaseSumAvailable cur accts) ∧
    ((accts.filter fun a => upperAscii a.currency == upperAscii cur).length ≤ 1 →
      binanceSumAvailable accts cur =
        ((accts.filter fun a => upperAscii a.currency == upperAscii cur).map
          (fun a => a.value.getD 0)).sum) := by
  have hmain : ∀ l : List AcctBal, coinbaseSumAvailable cur l =
      ((l.filter fun a => decide (a.currency = cur)).map
        (fun a => a.value.getD 0)).sum := by
    intro l
    unfold coinbaseSumAvailable
    rw [if_neg hcur, coinbase_sum_foldl cur l 0, zero_add]
  refine ⟨hmain accts, ?_, ?_⟩
  · intro x
    rw [hmain, hmain]
    rw [filter_map_proj (fun a => { currency := a.currency, value := a.value, hold := x })
      (fun a => decide (a.currency = cur)) (fun a => a.value.getD 0)
      (fun a => rfl) (fun a => rfl) accts]
  · intro hlen
    unfold binanceSumAvailable
    cases hfind : accts.find? (fun a => upperAscii a.currency == upperAscii cur) with
    | none =>
        have hnil : (accts.filter fun a => upperAscii a.currency == upperAscii cur) = [] := by
          apply List.filter_eq_nil_iff.mpr
          intro a ha hpa
          have := List.find?_eq_none.mp hfind a ha
          exact this hpa
        rw [hnil]
        rfl
    | some a =>
        have hpa := List.find?_some hfind
        have hmem : a ∈ accts.filter fun b => upperAscii b.currency == upperAscii cur :=
          List.mem_filter.mpr ⟨List.mem_of_find?_eq_some hfind, hpa⟩
        cases hfl : accts.filter fun b => upperAscii b.currency == upperAscii cur with
        | nil => rw [hfl] at hmem; cases hmem
        | cons b tl =>
            have htl : tl = [] := by
              rw [hfl] at hlen
              simp only [List.length_cons] at hlen
              exact List.eq_nil_of_length_eq_zero (by omega)
            subst htl
            rw [hfl] at hmem
            have hab : a = b := by
              rcases List.mem_cons.mp hmem with rfl | hm
              · rfl
              · cases hm
            subst hab
            simp

/-- Witness for C9's amended theorem at a concrete asset and account list. -/
theorem C9_available_balance_witness :
    ("BTC" : String) ≠ ("") ∧
    (coinbaseSumAvailable ("BTC") dupAccts =
      ((dupAccts.filter fun a => decide (a.currency = ("BTC"))).map
        (fun a => a.value.getD 0)).sum ∧
     (∀ x : ℚ, coinbaseSumAvailable ("BTC")
         (dupAccts.map fun a => { currency := a.currency, value := a.value, hold := x }) =
       coinbaseSumAvailable ("BTC") dupAccts) ∧
     ((dupAccts.filter fun a => upperAscii a.currency == upperAscii ("BTC")).length ≤ 1 →
       binanceSumAvailable dupAccts ("BTC") =
         ((dupAccts.filter fun a => upperAscii a.currency == upperAscii ("BTC")).map
           (fun a => a.value.getD 0)).sum)) :=
  ⟨by decide, C9_available_balance ("BTC") dupAccts (by decide)⟩
end Bridge
